import Mathlib

/-!
Verification of the spi-calculator firmware (controller + peripheral nodes).

This file gives a shallow embedding of the two Rust source files:
  - the bounded byte channel (heapless spsc Queue over u16 with the const
    parameter N = 16),
  - the calculator protocol engine (CalculatorStateMachine: transition and
    compute),
  - the decimal output formatting (int_to_chars and the leading-zero
    suppression loop of the peripheral SPI1 interrupt handler),
  - the two transport bridges (the USART2 / SPI1 interrupt handlers of each
    node), as step relations on explicit bridge states.

Machine integers (u32, u8) are modelled as Nat with explicit `% 2 ^ 32`
and `% 256` exactly where the Rust code can wrap or casts.  Fallible Rust
code is modelled with Option / Except: in particular `compute` returns
`Except CalcError _` where an error value records a panic (`wrapping_div`
by zero, or the `unreachable!()` arm of the operator match).
-/

namespace SpiCalc

/-! ## Bounded byte channel

The firmware uses `heapless::spsc::Queue<u16, 16>`.  A heapless spsc queue
with const parameter N is a ring buffer of N slots that always keeps one
slot free to distinguish full from empty, so it holds at most N - 1 = 15
pending elements; `enqueue` returns Err (leaving the queue unchanged) when
15 elements are pending and `dequeue` returns None when the queue is empty.
We model the queue functionally as the list of pending bytes, oldest first.
-/

/-- Models `Queue::<u16, 16>::enqueue`: `some` of the new contents on
success, `none` (queue unchanged) when the ring buffer is full, which
happens at N - 1 = 15 pending elements. -/
def enqueueQ (q : List Nat) (b : Nat) : Option (List Nat) :=
  if q.length < 15 then some (q ++ [b]) else none

/-- Models `Queue::dequeue`: the oldest pending byte and the remaining
contents, or `none` when empty. -/
def dequeueQ (q : List Nat) : Option (Nat × List Nat) :=
  match q with
  | [] => none
  | b :: rest => some (b, rest)

/-- Models `Queue::is_empty`. -/
def isEmptyQ (q : List Nat) : Bool :=
  q.isEmpty

/-- An enqueue whose failure is silently ignored, as in the peripheral's
`let _ = buffer.enqueue(..)`: on failure the queue is left unchanged. -/
def enqueueAttempt (q : List Nat) (b : Nat) : List Nat :=
  (enqueueQ q b).getD q

/-- A sequence of ignored-failure enqueues, as the peripheral's reply
emission performs. -/
def enqueueAll (q : List Nat) (bs : List Nat) : List Nat :=
  bs.foldl enqueueAttempt q

/-- A single channel operation, for stating reachability of queue
contents by an arbitrary enqueue/dequeue sequence. -/
inductive QOp
  | enq (b : Nat)
  | deq
deriving DecidableEq

/-- Run one channel operation; a failed enqueue or dequeue leaves the
contents unchanged. -/
def runQOp (q : List Nat) : QOp → List Nat
  | .enq b => enqueueAttempt q b
  | .deq =>
    match dequeueQ q with
    | some (_, q2) => q2
    | none => q

/-- Run a sequence of channel operations from the initially empty queue. -/
def runQOps (ops : List QOp) : List Nat :=
  ops.foldl runQOp []

/-! ## Calculator protocol engine (peripheral/src/main.rs lines 16-101) -/

/-- The two parse phases of `enum CalculatorState`. -/
inductive CalculatorState
  | Num1
  | Num2
deriving DecidableEq

/-- `struct CalculatorStateMachine`: the operand accumulators are heapless
`String<4>` values; they only ever hold ASCII digit characters (the only
characters `transition` pushes), so their byte length equals their
character count and we model them as `List Char`. -/
structure CalculatorStateMachine where
  num1 : List Char
  num2 : List Char
  op : Char
  state : CalculatorState
deriving DecidableEq

/-- `impl Default for CalculatorStateMachine`. -/
def CalculatorStateMachine.default : CalculatorStateMachine :=
  { num1 := [], num2 := [], op := '+', state := .Num1 }

/-- Models `char::is_ascii_digit`: the character is one of '0'..='9',
i.e. its code point lies in 48..=57. -/
def is_ascii_digit (c : Char) : Bool :=
  decide (48 ≤ c.toNat) && decide (c.toNat ≤ 57)

/-- `CalculatorStateMachine::transition` (lines 41-64): receive one input
character and move to the next state, returning the updated machine and
whether the transition was valid (the caller echoes the byte iff so).
The `String<4>` capacity check `self.num1.len() < self.num1.capacity()`
is the length bound 4. -/
def transition (sm : CalculatorStateMachine) (input : Char) :
    CalculatorStateMachine × Bool :=
  match sm.state with
  | .Num1 =>
    if sm.num1.length < 4 ∧ is_ascii_digit input = true then
      ({ sm with num1 := sm.num1 ++ [input] }, true)
    else if input ∈ (['+', '-', '*', '/'] : List Char) then
      ({ sm with op := input, state := .Num2 }, true)
    else
      (sm, false)
  | .Num2 =>
    if sm.num2.length < 4 ∧ is_ascii_digit input = true then
      ({ sm with num2 := sm.num2 ++ [input] }, true)
    else
      (sm, false)

/-- The digit-accumulation loop of Rust `u32::from_str`: consume the
remaining characters left to right; a non-digit character is an error,
and the checked multiply/add make any accumulated value that would reach
2 ^ 32 an error. -/
def parseDigitsU32 : List Char → Nat → Option Nat
  | [], acc => some acc
  | c :: cs, acc =>
    if is_ascii_digit c = true then
      let v := acc * 10 + (c.toNat - 48)
      if v < 4294967296 then parseDigitsU32 cs v else none
    else
      none

/-- Models `str::parse::<u32>` (`u32::from_str`): an optional leading '+',
then at least one ASCII digit, no other characters, value below 2 ^ 32;
anything else is an error (`none`). -/
def parseU32 (s : List Char) : Option Nat :=
  match s with
  | [] => none
  | c :: cs =>
    if c = '+' then
      match cs with
      | [] => none
      | _ :: _ => parseDigitsU32 cs 0
    else
      parseDigitsU32 (c :: cs) 0

/-- `.parse::<u32>().unwrap_or(0)` as used for operands in `compute`. -/
def parse0 (s : List Char) : Nat :=
  (parseU32 s).getD 0

/-- The panics `compute` can raise: `wrapping_div` panics when its divisor
is zero, and the catch-all operator arm is `unreachable!()`. -/
inductive CalcError
  | divisionByZero
  | unreachableCase
deriving DecidableEq

instance {ε α : Type} [DecidableEq ε] [DecidableEq α] : DecidableEq (Except ε α) :=
  fun x y =>
    match x, y with
    | .ok a, .ok b =>
      if h : a = b then isTrue (h ▸ rfl) else isFalse fun hh => h (Except.ok.inj hh)
    | .ok _, .error _ => isFalse fun hh => Except.noConfusion hh
    | .error _, .ok _ => isFalse fun hh => Except.noConfusion hh
    | .error e, .error f =>
      if h : e = f then isTrue (h ▸ rfl) else isFalse fun hh => h (Except.error.inj hh)

/-- `CalculatorStateMachine::compute` (lines 67-100).  Wrapping u32
addition and multiplication are `% 2 ^ 32` (both parsed operands are below
2 ^ 32, so `wrapping_add` is exactly `(a + b) % 2 ^ 32`); `saturating_sub`
on u32 is truncated Nat subtraction; `wrapping_div` is plain division but
panics when the divisor is zero, which happens when `num2` parses
successfully to 0 (only an unparseable `num2` is replaced by 1 via
`unwrap_or(1)`).  On success the machine is reset: phase `Num1` and both
operands cleared -- the `op` field is not touched. -/
def compute (sm : CalculatorStateMachine) :
    Except CalcError (Nat × CalculatorStateMachine) :=
  match sm.state with
  | .Num1 =>
    Except.ok (parse0 sm.num1, { sm with num1 := [], num2 := [], state := .Num1 })
  | .Num2 =>
    if sm.op = '+' then
      Except.ok ((parse0 sm.num1 + parse0 sm.num2) % 4294967296,
        { sm with num1 := [], num2 := [], state := .Num1 })
    else if sm.op = '*' then
      Except.ok ((parse0 sm.num1 * parse0 sm.num2) % 4294967296,
        { sm with num1 := [], num2 := [], state := .Num1 })
    else if sm.op = '-' then
      Except.ok (parse0 sm.num1 - parse0 sm.num2,
        { sm with num1 := [], num2 := [], state := .Num1 })
    else if sm.op = '/' then
      let d := (parseU32 sm.num2).getD 1
      if d = 0 then
        Except.error CalcError.divisionByZero
      else
        Except.ok (parse0 sm.num1 / d,
          { sm with num1 := [], num2 := [], state := .Num1 })
    else
      Except.error CalcError.unreachableCase

/-! ## Decimal output formatting (peripheral/src/main.rs lines 135-158, 171-182) -/

/-- The loop body of `int_to_chars`: walk the power list, emitting
`(int / power + 48) as u8` and keeping the remainder `int - digit * power`.
The `as u8` cast is `% 256`. -/
def int_to_chars_go : List Nat → Nat → List Nat
  | [], _ => []
  | power :: ps, int =>
    let digit := int / power
    ((digit + 48) % 256) :: int_to_chars_go ps (int - digit * power)

/-- `fn int_to_chars(int: u32) -> [u8; 8]`: the 8 bytes written into
`chars`, most significant decimal position first. -/
def int_to_chars (int : Nat) : List Nat :=
  int_to_chars_go [10000000, 1000000, 100000, 10000, 1000, 100, 10, 1] int

/-- The leading-zero suppression loop of the peripheral SPI1 handler
(lines 141-155), as the list of bytes it attempts to enqueue.  The Rust
loop tests `i == chars.len() - 1`, i.e. whether the current character is
the last one; the last character is emitted in every branch, a '0' before
any non-zero character is skipped, a character above '0' sets the
`non_zero_reached` flag, and everything after the flag is emitted. -/
def suppressZeros : List Nat → Bool → List Nat
  | [], _ => []
  | [c], _ => [c]
  | c :: c2 :: cs, nzr =>
    if c = 48 ∧ nzr = false then
      suppressZeros (c2 :: cs) nzr
    else if 48 < c then
      c :: suppressZeros (c2 :: cs) true
    else
      c :: suppressZeros (c2 :: cs) nzr

/-- The full reply byte sequence the peripheral SPI1 handler attempts to
enqueue on receiving '=' with computation result `r`: the byte '=' (61),
the suppressed digit characters, then CR (13) and LF (10). -/
def replyBytes (r : Nat) : List Nat :=
  61 :: suppressZeros (int_to_chars r) false ++ [13, 10]

/-- Claim-side definition (from the specification's words): the ASCII
decimal representation of `n`, most significant digit first, with no
leading zeros, the single character '0' (byte 48) when `n` is zero. -/
def decRepr (n : Nat) : List Nat :=
  if n < 10 then [n + 48]
  else decRepr (n / 10) ++ [n % 10 + 48]
decreasing_by
  omega

/-- Helper: the `k`-character zero-padded decimal digit bytes of `n`
(most significant first); `pad 8` is what `int_to_chars` produces for
arguments below 10 ^ 8. -/
def pad : Nat → Nat → List Nat
  | 0, _ => []
  | k + 1, n => (n / 10 ^ k + 48) :: pad k (n % 10 ^ k)

/-! ## Transport bridges (interrupt handlers as step relations)

Each handler runs to completion; we model one invocation as one step.  An
invocation finding its hardware ready guard (RXNE / RXP / TXE / TXFNF)
clear does nothing and is the `idle` step.  Registers other than the
channel and the transmit-interrupt-enable bit (data registers, SPE,
overrun acknowledge, the busy-wait) have no effect on either and are not
part of the bridge state.
-/

/-- Controller bridge state: the pending-byte channel (`TX_BUFFER`) and
the SPI1 CR2.TXEIE transmit-interrupt-enable bit.  `main` leaves the
channel empty and TXEIE clear. -/
structure CtrlState where
  queue : List Nat
  txeie : Bool
deriving DecidableEq

def ctrlInit : CtrlState := { queue := [], txeie := false }

/-- Controller USART2 receive handler (controller/src/main.rs lines 16-38),
invoked with RXNE set and received byte `b`: enqueue it; iff the enqueue
succeeded, set TXEIE (and SPE).  A full channel drops the byte silently. -/
def ctrlRx (s : CtrlState) (b : Nat) : CtrlState :=
  match enqueueQ s.queue b with
  | some q2 => { queue := q2, txeie := true }
  | none => s

/-- Controller SPI1 transmit handler (lines 40-58), invoked with TXE set:
dequeue; on a byte, send it and clear TXEIE if the channel became empty;
on `none`, clear TXEIE unconditionally. -/
def ctrlTx (s : CtrlState) : CtrlState :=
  match dequeueQ s.queue with
  | some (_, q2) => { queue := q2, txeie := if q2.isEmpty then false else s.txeie }
  | none => { queue := s.queue, txeie := false }

inductive CtrlStep : CtrlState → CtrlState → Prop
  | rx (b : Nat) (s : CtrlState) : CtrlStep s (ctrlRx s b)
  | tx (s : CtrlState) : CtrlStep s (ctrlTx s)
  | idle (s : CtrlState) : CtrlStep s s

inductive CtrlReachable : CtrlState → Prop
  | init : CtrlReachable ctrlInit
  | step {s s2 : CtrlState} : CtrlReachable s → CtrlStep s s2 → CtrlReachable s2

/-- Peripheral bridge state: the channel (`BUFFER`), the USART2
CR1.TXFNFIE transmit-interrupt-enable bit, and the calculator. -/
structure PeriphState where
  queue : List Nat
  txfnfie : Bool
  calculator : CalculatorStateMachine
deriving DecidableEq

def periphInit : PeriphState :=
  { queue := [], txfnfie := false, calculator := CalculatorStateMachine.default }

/-- Peripheral SPI1 receive handler (peripheral/src/main.rs lines 124-169),
invoked with RXP set and received byte `b` (the `as u8` casts are `% 256`).
On '=' (61): run `compute` -- `none` if it panics, halting the node --
then attempt to enqueue '=' plus the suppressed digits plus CR LF,
failures ignored.  Otherwise feed the character to `transition`, echoing
the byte into the channel iff the transition was valid.  Finally set
TXFNFIE if the channel is non-empty. -/
def periphRx (s : PeriphState) (b : Nat) : Option PeriphState :=
  if b % 256 = 61 then
    match compute s.calculator with
    | .error _ => none
    | .ok (r, calc2) =>
      let q := enqueueAll s.queue (replyBytes r)
      some { queue := q, txfnfie := if q.isEmpty then s.txfnfie else true,
             calculator := calc2 }
  else
    let t := transition s.calculator (Char.ofNat (b % 256))
    let q := if t.2 then enqueueAttempt s.queue b else s.queue
    some { queue := q, txfnfie := if q.isEmpty then s.txfnfie else true,
           calculator := t.1 }

/-- Peripheral USART2 transmit handler (lines 103-122), invoked with TXFNF
set: dequeue; on a byte, write TDR and clear TXFNFIE if the channel became
empty; on `none`, clear TXFNFIE unconditionally. -/
def periphTx (s : PeriphState) : PeriphState :=
  match dequeueQ s.queue with
  | some (_, q2) =>
    { s with queue := q2, txfnfie := if q2.isEmpty then false else s.txfnfie }
  | none => { s with txfnfie := false }

inductive PeriphStep : PeriphState → PeriphState → Prop
  | rx {b : Nat} {s s2 : PeriphState} : periphRx s b = some s2 → PeriphStep s s2
  | tx (s : PeriphState) : PeriphStep s (periphTx s)
  | idle (s : PeriphState) : PeriphStep s s

inductive PeriphReachable : PeriphState → Prop
  | init : PeriphReachable periphInit
  | step {s s2 : PeriphState} : PeriphReachable s → PeriphStep s s2 → PeriphReachable s2

/-- Calculator states arising in the peripheral: the default state, then
images under `transition` on arbitrary input and under successful
`compute` calls. -/
inductive CalcReachable : CalculatorStateMachine → Prop
  | init : CalcReachable CalculatorStateMachine.default
  | tstep (c : Char) {s : CalculatorStateMachine} :
      CalcReachable s → CalcReachable (transition s c).1
  | cstep {s : CalculatorStateMachine} {r : Nat} {s2 : CalculatorStateMachine} :
      CalcReachable s → compute s = .ok (r, s2) → CalcReachable s2

/-! ## Basic lemmas on the channel -/

theorem runQOp_length_le {q : List Nat} (h : q.length ≤ 15) (op : QOp) :
    (runQOp q op).length ≤ 15 := by
  cases op with
  | enq b =>
    simp only [runQOp, enqueueAttempt, enqueueQ]
    split
    · simp only [Option.getD_some, List.length_append, List.length_cons, List.length_nil]
      omega
    · simpa using h
  | deq =>
    cases q with
    | nil => simp [runQOp, dequeueQ]
    | cons x xs =>
      simp only [runQOp, dequeueQ, List.length_cons] at h ⊢
      omega

theorem runQOps_length_le (ops : List QOp) : (runQOps ops).length ≤ 15 := by
  suffices h : ∀ q : List Nat, q.length ≤ 15 → (ops.foldl runQOp q).length ≤ 15 by
    exact h [] (by simp)
  induction ops with
  | nil => intro q h; simpa using h
  | cons op rest ih =>
    intro q h
    simpa using ih (runQOp q op) (runQOp_length_le h op)

/-! ## Basic lemmas on the calculator -/

theorem compute_ok_shape {sm : CalculatorStateMachine} {r : Nat}
    {sm' : CalculatorStateMachine} (h : compute sm = .ok (r, sm')) :
    sm' = { num1 := [], num2 := [], op := sm.op, state := .Num1 } := by
  cases sm with
  | mk n1 n2 op st =>
    cases st <;> simp only [compute] at h
    · exact ((Prod.mk.injEq _ _ _ _).mp (Except.ok.inj h)).2.symm
    · split_ifs at h <;>
        first
        | exact absurd h (fun hh => Except.noConfusion hh)
        | exact ((Prod.mk.injEq _ _ _ _).mp (Except.ok.inj h)).2.symm

theorem digit_not_op {c : Char} (h : is_ascii_digit c = true) :
    c ∉ (['+', '-', '*', '/'] : List Char) := by
  intro hmem
  fin_cases hmem <;> exact absurd h (by decide)

theorem op_not_digit {c : Char} (h : c ∈ (['+', '-', '*', '/'] : List Char)) :
    is_ascii_digit c = false := by
  fin_cases h <;> decide

/-! ## Claim theorems C1 - C5 -/

/-- C1: the claim (and the spec's literal case 3) says inputs '5','/','0','='
produce the reply '=5' CR LF because a zero divisor is coerced to 1.  The
code instead panics: '0' parses successfully to 0, `unwrap_or(1)` therefore
keeps 0, and `wrapping_div` panics on a zero divisor.  This theorem
evaluates the code at the failing input: after feeding '5','/','0' from the
initial state the machine is exactly num1 = "5", op = '/', num2 = "0" in
`Num2`, and `compute` on it panics with a division by zero. -/
theorem compute_div_by_zero_panics :
    (transition ((transition ((transition CalculatorStateMachine.default '5').1) '/').1) '0').1 =
      ⟨['5'], ['0'], '/', .Num2⟩ ∧
    compute ⟨['5'], ['0'], '/', .Num2⟩ = .error CalcError.divisionByZero := by
  decide

/-- C2, counterexample: after the operation sequence of 15 enqueues from the
empty channel, occupancy is 15 (strictly below the claimed capacity 16), yet
the next `try_enqueue` already fails -- refuting that enqueue succeeds
whenever occupancy is below 16. -/
theorem queue_capacity_claim_false :
    (runQOps (List.replicate 15 (QOp.enq 7))).length = 15 ∧
    (runQOps (List.replicate 15 (QOp.enq 7))).length < 16 ∧
    enqueueQ (runQOps (List.replicate 15 (QOp.enq 7))) 8 = none := by
  decide

/-- C2, amended: for every sequence of enqueue/dequeue operations, occupancy
stays in [0, 15] (the heapless `Queue<u16, 16>` ring buffer holds at most
N - 1 = 15 pending elements); `try_enqueue` fails exactly when 15 bytes are
pending, and a failed enqueue leaves the contents unchanged. -/
theorem queue_capacity_fifteen (ops : List QOp) (b : Nat) :
    (runQOps ops).length ≤ 15 ∧
    (enqueueQ (runQOps ops) b = none ↔ (runQOps ops).length = 15) ∧
    (enqueueQ (runQOps ops) b = none → enqueueAttempt (runQOps ops) b = runQOps ops) := by
  have hle := runQOps_length_le ops
  refine ⟨hle, ?_, ?_⟩
  · unfold enqueueQ
    split <;> rename_i hsplit <;> simp <;> omega
  · intro hnone
    simp [enqueueAttempt, hnone]

theorem queue_capacity_fifteen_witness :
    (runQOps (List.replicate 15 (QOp.enq 3))).length ≤ 15 ∧
    (enqueueQ (runQOps (List.replicate 15 (QOp.enq 3))) 7 = none ↔
      (runQOps (List.replicate 15 (QOp.enq 3))).length = 15) ∧
    (enqueueQ (runQOps (List.replicate 15 (QOp.enq 3))) 7 = none →
      enqueueAttempt (runQOps (List.replicate 15 (QOp.enq 3))) 7 =
        runQOps (List.replicate 15 (QOp.enq 3))) :=
  queue_capacity_fifteen (List.replicate 15 (QOp.enq 3)) 7

/-- C3, counterexample: the claim says the post-compute state equals the
freshly-initialized state including the operator field.  But `compute`
never resets `op`: from the initial state, input '*' then '=' reaches
num1 = num2 = "" with op = '*', and after `compute` the state keeps
op = '*', which differs from the default state (op = '+'). -/
theorem compute_reset_claim_false :
    (transition CalculatorStateMachine.default '*').1 = ⟨[], [], '*', .Num2⟩ ∧
    compute ⟨[], [], '*', .Num2⟩ = .ok (0, ⟨[], [], '*', .Num1⟩) ∧
    (⟨[], [], '*', .Num1⟩ : CalculatorStateMachine) ≠ CalculatorStateMachine.default := by
  decide

/-- C3, amended: after every `compute` call that returns (i.e. does not
panic), the phase is `AwaitingFirstOperand` and both operand strings are
empty, but the operator field keeps whatever value it had before the call
instead of being reset to its default '+'. -/
theorem compute_resets_operands (sm : CalculatorStateMachine) (r : Nat)
    (sm' : CalculatorStateMachine) (h : compute sm = .ok (r, sm')) :
    sm'.state = .Num1 ∧ sm'.num1 = [] ∧ sm'.num2 = [] ∧ sm'.op = sm.op := by
  have hs := compute_ok_shape h
  subst hs
  exact ⟨rfl, rfl, rfl, rfl⟩

theorem compute_resets_operands_witness :
    compute ⟨['7'], [], '+', .Num1⟩ = .ok (7, ⟨[], [], '+', .Num1⟩) ∧
    ((⟨[], [], '+', .Num1⟩ : CalculatorStateMachine).state = .Num1 ∧
      (⟨[], [], '+', .Num1⟩ : CalculatorStateMachine).num1 = [] ∧
      (⟨[], [], '+', .Num1⟩ : CalculatorStateMachine).num2 = [] ∧
      (⟨[], [], '+', .Num1⟩ : CalculatorStateMachine).op =
        (⟨['7'], [], '+', .Num1⟩ : CalculatorStateMachine).op) :=
  ⟨by decide,
    compute_resets_operands ⟨['7'], [], '+', .Num1⟩ 7 ⟨[], [], '+', .Num1⟩ (by decide)⟩

/-- C4: full characterization of `transition`.  In `Num1` a digit is
accepted and appended iff `num1` has fewer than 4 characters, an operator
symbol is accepted, recorded and moves the phase to `Num2`, and every other
input is rejected with the state unchanged; in `Num2` a digit is accepted
and appended iff `num2` has fewer than 4 characters and everything else
(operators included) is rejected with the state unchanged.  The returned
boolean is true exactly on the accepted transitions. -/
theorem transition_characterization (sm : CalculatorStateMachine) (c : Char) :
    (sm.state = .Num1 →
      ((is_ascii_digit c = true ∧ sm.num1.length < 4) →
        transition sm c = ({ sm with num1 := sm.num1 ++ [c] }, true)) ∧
      ((is_ascii_digit c = true ∧ 4 ≤ sm.num1.length) →
        transition sm c = (sm, false)) ∧
      (c ∈ (['+', '-', '*', '/'] : List Char) →
        transition sm c = ({ sm with op := c, state := .Num2 }, true)) ∧
      ((is_ascii_digit c = false ∧ c ∉ (['+', '-', '*', '/'] : List Char)) →
        transition sm c = (sm, false))) ∧
    (sm.state = .Num2 →
      ((is_ascii_digit c = true ∧ sm.num2.length < 4) →
        transition sm c = ({ sm with num2 := sm.num2 ++ [c] }, true)) ∧
      (¬(is_ascii_digit c = true ∧ sm.num2.length < 4) →
        transition sm c = (sm, false))) := by
  constructor
  · intro hs
    refine ⟨fun ⟨hd, hl⟩ => ?_, fun ⟨hd, hl⟩ => ?_, fun hmem => ?_, fun ⟨hd, hmem⟩ => ?_⟩
    · simp only [transition, hs]
      rw [if_pos ⟨hl, hd⟩]
    · simp only [transition, hs]
      rw [if_neg (by omega), if_neg (by intro hmem; exact absurd hd (by simp [op_not_digit hmem]))]
    · simp only [transition, hs]
      rw [if_neg (by intro ⟨_, hd⟩; exact absurd hd (by simp [op_not_digit hmem])), if_pos hmem]
    · simp only [transition, hs]
      rw [if_neg (by intro ⟨_, hd2⟩; rw [hd] at hd2; exact Bool.noConfusion hd2), if_neg hmem]
  · intro hs
    refine ⟨fun ⟨hd, hl⟩ => ?_, fun hn => ?_⟩
    · simp only [transition, hs]
      rw [if_pos ⟨hl, hd⟩]
    · simp only [transition, hs]
      rw [if_neg (by intro ⟨hl, hd⟩; exact hn ⟨hd, hl⟩)]

theorem transition_characterization_witness :
    transition CalculatorStateMachine.default '7' =
      ({ CalculatorStateMachine.default with num1 := ['7'] }, true) :=
  ((transition_characterization CalculatorStateMachine.default '7').1 rfl).1
    ⟨by decide, by decide⟩

/-- C5: `compute` parses the operands as unsigned base-10 integers with an
empty or unparseable operand parsed as 0; in phase `Num1` the result is the
parsed first operand alone (second operand and operator irrelevant), and in
phase `Num2` the operators '+', '*' and '-' are wrapping addition modulo
2 ^ 32, wrapping multiplication modulo 2 ^ 32, and saturating subtraction
floored at 0 (truncated Nat subtraction). -/
theorem compute_arithmetic (n1 n2 : List Char) (op : Char) :
    compute ⟨n1, n2, op, .Num1⟩ = .ok (parse0 n1, ⟨[], [], op, .Num1⟩) ∧
    compute ⟨n1, n2, '+', .Num2⟩ =
      .ok ((parse0 n1 + parse0 n2) % 2 ^ 32, ⟨[], [], '+', .Num1⟩) ∧
    compute ⟨n1, n2, '*', .Num2⟩ =
      .ok ((parse0 n1 * parse0 n2) % 2 ^ 32, ⟨[], [], '*', .Num1⟩) ∧
    compute ⟨n1, n2, '-', .Num2⟩ =
      .ok (parse0 n1 - parse0 n2, ⟨[], [], '-', .Num1⟩) ∧
    parse0 [] = 0 ∧
    (parseU32 n1 = none → parse0 n1 = 0) := by
  refine ⟨rfl, ?_, ?_, ?_, rfl, ?_⟩
  · show compute _ = .ok ((parse0 n1 + parse0 n2) % 4294967296, _)
    rfl
  · show compute _ = .ok ((parse0 n1 * parse0 n2) % 4294967296, _)
    rfl
  · rfl
  · intro h
    simp [parse0, h]

theorem compute_arithmetic_witness :
    compute ⟨['1', '2'], ['3'], '+', .Num1⟩ =
      .ok (parse0 ['1', '2'], ⟨[], [], '+', .Num1⟩) ∧
    compute ⟨['1', '2'], ['3'], '+', .Num2⟩ =
      .ok ((parse0 ['1', '2'] + parse0 ['3']) % 2 ^ 32, ⟨[], [], '+', .Num1⟩) ∧
    compute ⟨['1', '2'], ['3'], '*', .Num2⟩ =
      .ok ((parse0 ['1', '2'] * parse0 ['3']) % 2 ^ 32, ⟨[], [], '*', .Num1⟩) ∧
    compute ⟨['1', '2'], ['3'], '-', .Num2⟩ =
      .ok (parse0 ['1', '2'] - parse0 ['3'], ⟨[], [], '-', .Num1⟩) ∧
    parse0 [] = 0 ∧
    (parseU32 ['1', '2'] = none → parse0 ['1', '2'] = 0) :=
  compute_arithmetic ['1', '2'] ['3'] '+'

/-! ## Lemmas on parsing bounds -/

theorem parseDigitsU32_lt : ∀ (s : List Char) (acc v : Nat),
    parseDigitsU32 s acc = some v → v < (acc + 1) * 10 ^ s.length
  | [], acc, v, h => by
    simp only [parseDigitsU32, Option.some.injEq] at h
    simp only [List.length_nil, pow_zero, mul_one]
    omega
  | c :: cs, acc, v, h => by
    simp only [parseDigitsU32] at h
    split_ifs at h with hd hv
    · have ih := parseDigitsU32_lt cs (acc * 10 + (c.toNat - 48)) v h
      have hdle : c.toNat - 48 ≤ 9 := by
        simp only [is_ascii_digit, Bool.and_eq_true, decide_eq_true_eq] at hd
        omega
      simp only [List.length_cons]
      calc v < (acc * 10 + (c.toNat - 48) + 1) * 10 ^ cs.length := ih
        _ ≤ ((acc + 1) * 10) * 10 ^ cs.length := by
            exact Nat.mul_le_mul_right _ (by omega)
        _ = (acc + 1) * 10 ^ (cs.length + 1) := by ring

theorem parseU32_lt {s : List Char} {v : Nat} (h : parseU32 s = some v) :
    v < 10 ^ s.length := by
  match s with
  | [] => simp [parseU32] at h
  | c :: cs =>
    simp only [parseU32] at h
    split_ifs at h with hc
    · match cs with
      | [] => exact absurd h (by simp)
      | c2 :: cs2 =>
        have := parseDigitsU32_lt (c2 :: cs2) 0 v h
        simp only [zero_add, one_mul] at this
        calc v < 10 ^ (c2 :: cs2).length := this
          _ ≤ 10 ^ (c :: c2 :: cs2).length := by
              exact Nat.pow_le_pow_right (by norm_num) (by simp)
    · have := parseDigitsU32_lt (c :: cs) 0 v h
      simpa using this

theorem parse0_le_9999 {s : List Char} (h : s.length ≤ 4) : parse0 s ≤ 9999 := by
  unfold parse0
  cases hp : parseU32 s with
  | none => simp
  | some v =>
    simp only [Option.getD_some]
    have hv := parseU32_lt hp
    have : (10 : Nat) ^ s.length ≤ 10 ^ 4 := Nat.pow_le_pow_right (by norm_num) h
    omega

/-- The bound on every value `compute` can actually return: with both
operands at most 4 characters long, both parse to at most 9999, so the
result is at most 9999 * 9999 = 99980001 < 10 ^ 8. -/
theorem compute_ok_bound {sm : CalculatorStateMachine} {r : Nat}
    {sm' : CalculatorStateMachine} (h1 : sm.num1.length ≤ 4)
    (h2 : sm.num2.length ≤ 4) (h : compute sm = .ok (r, sm')) :
    r ≤ 99980001 := by
  have p1 := parse0_le_9999 h1
  have p2 := parse0_le_9999 h2
  cases sm with
  | mk n1 n2 op st =>
    simp only at p1 p2
    cases st <;> simp only [compute] at h
    · have hr := ((Prod.mk.injEq _ _ _ _).mp (Except.ok.inj h)).1
      omega
    · split_ifs at h with hp hm hs hd hz
      · have hr := ((Prod.mk.injEq _ _ _ _).mp (Except.ok.inj h)).1
        have := Nat.mod_le (parse0 n1 + parse0 n2) 4294967296
        omega
      · have hr := ((Prod.mk.injEq _ _ _ _).mp (Except.ok.inj h)).1
        have hmul : parse0 n1 * parse0 n2 ≤ 9999 * 9999 := Nat.mul_le_mul p1 p2
        have := Nat.mod_le (parse0 n1 * parse0 n2) 4294967296
        omega
      · have hr := ((Prod.mk.injEq _ _ _ _).mp (Except.ok.inj h)).1
        omega
      · have h' := Except.ok.inj h
        simp only [Prod.mk.injEq] at h'
        obtain ⟨hr, -⟩ := h'
        have := Nat.div_le_self (parse0 n1) ((parseU32 n2).getD 1)
        omega

/-! ## Lemmas on decimal formatting -/

theorem decRepr_of_lt {n : Nat} (h : n < 10) : decRepr n = [n + 48] := by
  rw [decRepr]
  exact if_pos h

theorem decRepr_of_ge {n : Nat} (h : 10 ≤ n) :
    decRepr n = decRepr (n / 10) ++ [n % 10 + 48] := by
  rw [decRepr]
  exact if_neg (by omega)

theorem suppressZeros_cons_cons (c c2 : Nat) (cs : List Nat) (nzr : Bool) :
    suppressZeros (c :: c2 :: cs) nzr =
      if c = 48 ∧ nzr = false then suppressZeros (c2 :: cs) nzr
      else if 48 < c then c :: suppressZeros (c2 :: cs) true
      else c :: suppressZeros (c2 :: cs) nzr := rfl

/-- Once the non-zero flag is set, the loop emits every remaining byte. -/
theorem suppressZeros_true : ∀ l : List Nat, suppressZeros l true = l
  | [] => rfl
  | [_] => rfl
  | c :: c2 :: cs => by
    rw [suppressZeros_cons_cons, if_neg (by simp)]
    have ih := suppressZeros_true (c2 :: cs)
    split <;> rw [ih]

theorem suppressZeros_length_le : ∀ (l : List Nat) (f : Bool),
    (suppressZeros l f).length ≤ l.length
  | [], _ => by simp [suppressZeros]
  | [c], _ => by simp [suppressZeros]
  | c :: c2 :: cs, f => by
    rw [suppressZeros_cons_cons]
    have ih1 := suppressZeros_length_le (c2 :: cs) f
    have ih2 := suppressZeros_length_le (c2 :: cs) true
    split_ifs <;> simp only [List.length_cons] at ih1 ih2 ⊢ <;> omega

theorem int_to_chars_length (r : Nat) : (int_to_chars r).length = 8 := by
  simp [int_to_chars, int_to_chars_go]

theorem int_to_chars_explicit {r : Nat} (h : r < 100000000) :
    int_to_chars r = [r / 10000000 % 10 + 48, r / 1000000 % 10 + 48,
      r / 100000 % 10 + 48, r / 10000 % 10 + 48, r / 1000 % 10 + 48,
      r / 100 % 10 + 48, r / 10 % 10 + 48, r % 10 + 48] := by
  simp only [int_to_chars, int_to_chars_go, List.cons.injEq, and_true]
  refine ⟨?_, ?_, ?_, ?_, ?_, ?_, ?_, ?_⟩ <;> omega

theorem pad_eight_explicit {r : Nat} (h : r < 100000000) :
    pad 8 r = [r / 10000000 % 10 + 48, r / 1000000 % 10 + 48,
      r / 100000 % 10 + 48, r / 10000 % 10 + 48, r / 1000 % 10 + 48,
      r / 100 % 10 + 48, r / 10 % 10 + 48, r % 10 + 48] := by
  have e : pad 8 r = [r / 10 ^ 7 + 48,
      r % 10 ^ 7 / 10 ^ 6 + 48,
      r % 10 ^ 7 % 10 ^ 6 / 10 ^ 5 + 48,
      r % 10 ^ 7 % 10 ^ 6 % 10 ^ 5 / 10 ^ 4 + 48,
      r % 10 ^ 7 % 10 ^ 6 % 10 ^ 5 % 10 ^ 4 / 10 ^ 3 + 48,
      r % 10 ^ 7 % 10 ^ 6 % 10 ^ 5 % 10 ^ 4 % 10 ^ 3 / 10 ^ 2 + 48,
      r % 10 ^ 7 % 10 ^ 6 % 10 ^ 5 % 10 ^ 4 % 10 ^ 3 % 10 ^ 2 / 10 ^ 1 + 48,
      r % 10 ^ 7 % 10 ^ 6 % 10 ^ 5 % 10 ^ 4 % 10 ^ 3 % 10 ^ 2 % 10 ^ 1 / 10 ^ 0 + 48] := rfl
  rw [e]
  simp only [List.cons.injEq, and_true]
  norm_num
  omega

theorem int_to_chars_eq_pad {r : Nat} (h : r < 100000000) :
    int_to_chars r = pad 8 r :=
  (int_to_chars_explicit h).trans (pad_eight_explicit h).symm

theorem pad_peel (k : Nat) : ∀ n : Nat, n < 10 ^ (k + 1) →
    pad (k + 1) n = pad k (n / 10) ++ [n % 10 + 48] := by
  induction k with
  | zero =>
    intro n h
    simp only [pad, pow_zero, Nat.div_one, List.nil_append]
    rw [Nat.mod_eq_of_lt (by simpa using h)]
  | succ k ih =>
    intro n _
    have h1 : n / 10 / 10 ^ k = n / 10 ^ (k + 1) := by
      rw [Nat.div_div_eq_div_mul]
      congr 1
      rw [pow_succ']
    have h2 : n % 10 ^ (k + 1) < 10 ^ (k + 1) := Nat.mod_lt _ (by positivity)
    have ihx := ih (n % 10 ^ (k + 1)) h2
    have h3 : n % 10 ^ (k + 1) / 10 = n / 10 % 10 ^ k := by
      rw [pow_succ', Nat.mod_mul_right_div_self]
    have h4 : n % 10 ^ (k + 1) % 10 = n % 10 :=
      Nat.mod_mod_of_dvd n (dvd_pow_self 10 (Nat.succ_ne_zero k))
    calc pad (k + 1 + 1) n
        = (n / 10 ^ (k + 1) + 48) :: pad (k + 1) (n % 10 ^ (k + 1)) := rfl
      _ = (n / 10 ^ (k + 1) + 48) ::
            (pad k (n % 10 ^ (k + 1) / 10) ++ [n % 10 ^ (k + 1) % 10 + 48]) := by rw [ihx]
      _ = (n / 10 ^ (k + 1) + 48) :: (pad k (n / 10 % 10 ^ k) ++ [n % 10 + 48]) := by
            rw [h3, h4]
      _ = (n / 10 / 10 ^ k + 48) :: (pad k (n / 10 % 10 ^ k) ++ [n % 10 + 48]) := by rw [h1]
      _ = pad (k + 1) (n / 10) ++ [n % 10 + 48] := rfl

theorem decRepr_peel (k : Nat) : ∀ n : Nat, 10 ^ k ≤ n → n < 10 ^ (k + 1) →
    decRepr n = (n / 10 ^ k + 48) :: pad k (n % 10 ^ k) := by
  induction k with
  | zero =>
    intro n h1 h2
    rw [decRepr_of_lt (by simpa using h2)]
    simp only [pad, pow_zero, Nat.div_one]
  | succ k ih =>
    intro n h1 h2
    have h10 : 10 ≤ n := le_trans (by calc (10 : Nat) = 10 ^ 1 := (pow_one 10).symm
      _ ≤ 10 ^ (k + 1) := Nat.pow_le_pow_right (by norm_num) (by omega)) h1
    rw [decRepr_of_ge h10]
    have hd1 : 10 ^ k ≤ n / 10 := by
      rw [Nat.le_div_iff_mul_le (by norm_num)]
      calc 10 ^ k * 10 = 10 ^ (k + 1) := (pow_succ 10 k).symm
        _ ≤ n := h1
    have hd2 : n / 10 < 10 ^ (k + 1) := by
      rw [Nat.div_lt_iff_lt_mul (by norm_num)]
      calc n < 10 ^ (k + 1 + 1) := h2
        _ = 10 ^ (k + 1) * 10 := pow_succ 10 (k + 1)
    rw [ih (n / 10) hd1 hd2]
    have h1' : n / 10 / 10 ^ k = n / 10 ^ (k + 1) := by
      rw [Nat.div_div_eq_div_mul]
      congr 1
      rw [pow_succ']
    have h3 : n % 10 ^ (k + 1) / 10 = n / 10 % 10 ^ k := by
      rw [pow_succ', Nat.mod_mul_right_div_self]
    have h4 : n % 10 ^ (k + 1) % 10 = n % 10 :=
      Nat.mod_mod_of_dvd n (dvd_pow_self 10 (Nat.succ_ne_zero k))
    rw [List.cons_append, h1']
    congr 1
    rw [← h3, ← h4]
    exact (pad_peel k (n % 10 ^ (k + 1)) (Nat.mod_lt _ (by positivity))).symm

/-- The suppression loop applied to the `k + 1`-digit zero-padded rendering
of `n` yields exactly the leading-zero-free decimal representation. -/
theorem suppress_pad (k : Nat) : ∀ n : Nat, n < 10 ^ (k + 1) →
    suppressZeros (pad (k + 1) n) false = decRepr n := by
  induction k with
  | zero =>
    intro n h
    have e : pad 1 n = [n + 48] := by
      simp only [pad, pow_zero, Nat.div_one]
    rw [e, decRepr_of_lt (by simpa using h)]
    rfl
  | succ k ih =>
    intro n h
    have hpad : pad (k + 1 + 1) n =
        (n / 10 ^ (k + 1) + 48) :: ((n % 10 ^ (k + 1)) / 10 ^ k + 48) ::
          pad k ((n % 10 ^ (k + 1)) % 10 ^ k) := rfl
    rw [hpad, suppressZeros_cons_cons]
    by_cases hlt : n < 10 ^ (k + 1)
    · have hc : n / 10 ^ (k + 1) + 48 = 48 ∧ (false : Bool) = false :=
        ⟨by rw [Nat.div_eq_of_lt hlt], rfl⟩
      rw [if_pos hc]
      have hback : ((n % 10 ^ (k + 1)) / 10 ^ k + 48) ::
          pad k ((n % 10 ^ (k + 1)) % 10 ^ k) = pad (k + 1) (n % 10 ^ (k + 1)) := rfl
      rw [hback, Nat.mod_eq_of_lt hlt]
      exact ih n hlt
    · push_neg at hlt
      have hd : 1 ≤ n / 10 ^ (k + 1) := (Nat.one_le_div_iff (by positivity)).mpr hlt
      rw [if_neg (by intro hx; omega), if_pos (by omega)]
      have hback : ((n % 10 ^ (k + 1)) / 10 ^ k + 48) ::
          pad k ((n % 10 ^ (k + 1)) % 10 ^ k) = pad (k + 1) (n % 10 ^ (k + 1)) := rfl
      rw [hback, suppressZeros_true]
      exact (decRepr_peel (k + 1) n hlt h).symm

/-- The suppression loop over `int_to_chars r` produces the canonical
no-leading-zero decimal representation, for any in-range result. -/
theorem reply_digits {r : Nat} (h : r < 100000000) :
    suppressZeros (int_to_chars r) false = decRepr r := by
  rw [int_to_chars_eq_pad h]
  exact suppress_pad 7 r (by norm_num; omega)

/-! ## Lemmas on reply enqueueing -/

theorem enqueueAll_eq_take : ∀ (bs q : List Nat), q.length ≤ 15 →
    enqueueAll q bs = q ++ bs.take (15 - q.length)
  | [], q, _ => by simp [enqueueAll]
  | b :: bs, q, h => by
    by_cases hf : q.length < 15
    · have hstep : enqueueAttempt q b = q ++ [b] := by
        simp [enqueueAttempt, enqueueQ, hf]
      have hlen1 : (q ++ [b]).length ≤ 15 := by
        simp only [List.length_append, List.length_cons, List.length_nil]
        omega
      have ih := enqueueAll_eq_take bs (q ++ [b]) hlen1
      have hlen : 15 - q.length = (15 - (q ++ [b]).length) + 1 := by
        simp only [List.length_append, List.length_cons, List.length_nil]
        omega
      calc enqueueAll q (b :: bs) = enqueueAll (q ++ [b]) bs := by
            simp only [enqueueAll, List.foldl_cons, hstep]
        _ = (q ++ [b]) ++ bs.take (15 - (q ++ [b]).length) := ih
        _ = q ++ (b :: bs).take (15 - q.length) := by
            rw [hlen, List.take_succ_cons, List.append_assoc, List.singleton_append]
    · have h15 : ¬q.length < 15 := hf
      have hstep : enqueueAttempt q b = q := by
        simp [enqueueAttempt, enqueueQ, h15]
      have ih := enqueueAll_eq_take bs q h
      have hz : 15 - q.length = 0 := by omega
      calc enqueueAll q (b :: bs) = enqueueAll q bs := by
            simp only [enqueueAll, List.foldl_cons, hstep]
        _ = q ++ bs.take (15 - q.length) := ih
        _ = q ++ (b :: bs).take (15 - q.length) := by
            rw [hz]
            simp

/-! ## Claim theorems C6, C7, C9 -/

/-- C6: every reply the peripheral attempts to enqueue on receipt of '='
for a result `r` actually produced by `compute` is exactly the byte '='
(61), then the decimal digits of `r` with leading zeros suppressed (the
single character '0' when `r` is zero -- this is `decRepr`), then CR (13)
and LF (10). -/
theorem reply_format (sm : CalculatorStateMachine) (r : Nat)
    (sm' : CalculatorStateMachine) (h1 : sm.num1.length ≤ 4)
    (h2 : sm.num2.length ≤ 4) (hc : compute sm = .ok (r, sm')) :
    replyBytes r = 61 :: (decRepr r ++ [13, 10]) := by
  have hb : r ≤ 99980001 := compute_ok_bound h1 h2 hc
  simp only [replyBytes, reply_digits (by omega : r < 100000000), List.cons_append]

theorem reply_format_witness :
    replyBytes 15 = 61 :: (decRepr 15 ++ [13, 10]) :=
  reply_format ⟨['1', '5'], [], '+', .Num1⟩ 15 ⟨[], [], '+', .Num1⟩
    (by decide) (by decide) (by decide)

/-- C7: with both operands at most 4 characters, every result `compute`
can return is at most 9999 * 9999 = 99980001 < 10 ^ 8, and `int_to_chars`
renders every such value as exactly its 8-character zero-padded ASCII
decimal representation (digit i is `r / 10 ^ (7 - i) % 10 + 48`). -/
theorem compute_result_bound_digits (sm : CalculatorStateMachine) (r : Nat)
    (sm' : CalculatorStateMachine) (h1 : sm.num1.length ≤ 4)
    (h2 : sm.num2.length ≤ 4) (hc : compute sm = .ok (r, sm')) :
    r ≤ 99980001 ∧ r < 100000000 ∧
    int_to_chars r = [r / 10000000 % 10 + 48, r / 1000000 % 10 + 48,
      r / 100000 % 10 + 48, r / 10000 % 10 + 48, r / 1000 % 10 + 48,
      r / 100 % 10 + 48, r / 10 % 10 + 48, r % 10 + 48] := by
  have hb := compute_ok_bound h1 h2 hc
  exact ⟨hb, by omega, int_to_chars_explicit (by omega)⟩

theorem compute_result_bound_digits_witness :
    9998 ≤ 99980001 ∧ 9998 < 100000000 ∧
    int_to_chars 9998 = [9998 / 10000000 % 10 + 48, 9998 / 1000000 % 10 + 48,
      9998 / 100000 % 10 + 48, 9998 / 10000 % 10 + 48, 9998 / 1000 % 10 + 48,
      9998 / 100 % 10 + 48, 9998 / 10 % 10 + 48, 9998 % 10 + 48] :=
  compute_result_bound_digits ⟨['9', '9', '9', '9'], ['1'], '-', .Num2⟩ 9998
    ⟨[], [], '-', .Num1⟩ (by decide) (by decide) (by decide)

/-- C9: the peripheral's reply emission ignores every failed enqueue
(`let _ = buffer.enqueue(..)`), so from a channel holding `q` the reply
bytes actually stored are only the first `15 - q.length` of the (at most
11-byte) reply: when the channel lacks enough free slots the reply is
silently truncated, and the full '=' + decimal + CR LF sequence is stored
only when enough capacity is free. -/
theorem reply_truncated_when_full (q : List Nat) (r : Nat)
    (hq : q.length ≤ 15) :
    enqueueAll q (replyBytes r) = q ++ (replyBytes r).take (15 - q.length) ∧
    (replyBytes r).length ≤ 11 := by
  refine ⟨enqueueAll_eq_take _ _ hq, ?_⟩
  have h1 := suppressZeros_length_le (int_to_chars r) false
  have h2 : (int_to_chars r).length = 8 := int_to_chars_length r
  simp only [replyBytes, List.length_cons, List.length_append, List.length_nil]
  omega

theorem reply_truncated_when_full_witness :
    enqueueAll (List.replicate 12 9) (replyBytes 15) =
      List.replicate 12 9 ++ (replyBytes 15).take (15 - (List.replicate 12 9).length) ∧
    (replyBytes 15).length ≤ 11 :=
  reply_truncated_when_full (List.replicate 12 9) 15 (by decide)

/-! ## Bridge invariants -/

theorem enqueueQ_some {q q2 : List Nat} {b : Nat} (h : enqueueQ q b = some q2) :
    q2 = q ++ [b] ∧ q.length < 15 := by
  unfold enqueueQ at h
  split at h
  · exact ⟨(Option.some.inj h).symm, by assumption⟩
  · exact absurd h (by simp)

theorem enqueueAttempt_isEmpty {q : List Nat} {b : Nat}
    (h : (enqueueAttempt q b).isEmpty = true) : q.isEmpty = true := by
  by_cases hlen : q.length < 15
  · simp [enqueueAttempt, enqueueQ, hlen] at h
  · simpa [enqueueAttempt, enqueueQ, hlen] using h

theorem enqueueAll_isEmpty {q bs : List Nat} (hl : q.length ≤ 15)
    (h : (enqueueAll q bs).isEmpty = true) : q.isEmpty = true := by
  rw [enqueueAll_eq_take bs q hl] at h
  simp only [List.isEmpty_eq_true, List.append_eq_nil] at h
  simp [h.1]

theorem enqueueAll_length_le {q bs : List Nat} (hl : q.length ≤ 15) :
    (enqueueAll q bs).length ≤ 15 := by
  rw [enqueueAll_eq_take bs q hl]
  simp only [List.length_append, List.length_take]
  omega

theorem ctrlRx_invariant {s : CtrlState} (b : Nat) (ihl : s.queue.length ≤ 15)
    (ihe : s.txeie = !s.queue.isEmpty) :
    (ctrlRx s b).queue.length ≤ 15 ∧
      (ctrlRx s b).txeie = !(ctrlRx s b).queue.isEmpty := by
  cases he : enqueueQ s.queue b with
  | some q2 =>
    obtain ⟨hq, hlt⟩ := enqueueQ_some he
    subst hq
    simp only [ctrlRx, he]
    refine ⟨?_, ?_⟩
    · simp only [List.length_append, List.length_cons, List.length_nil]
      omega
    · simp
  | none =>
    simp only [ctrlRx, he]
    exact ⟨ihl, ihe⟩

theorem ctrlTx_invariant {s : CtrlState} (ihl : s.queue.length ≤ 15)
    (ihe : s.txeie = !s.queue.isEmpty) :
    (ctrlTx s).queue.length ≤ 15 ∧
      (ctrlTx s).txeie = !(ctrlTx s).queue.isEmpty := by
  cases hq : s.queue with
  | nil =>
    simp only [ctrlTx, hq, dequeueQ]
    exact ⟨by simp, by simp⟩
  | cons x xs =>
    rw [hq] at ihl ihe
    simp only [ctrlTx, hq, dequeueQ]
    refine ⟨by simp only [List.length_cons] at ihl ⊢; omega, ?_⟩
    by_cases hxe : xs.isEmpty
    · simp [hxe]
    · simp only [List.isEmpty_cons, Bool.not_false] at ihe
      simp only [Bool.not_eq_true] at hxe
      simp [hxe, ihe]

theorem ctrl_invariant {s : CtrlState} (h : CtrlReachable s) :
    s.queue.length ≤ 15 ∧ s.txeie = !s.queue.isEmpty := by
  induction h with
  | init => exact ⟨by simp [ctrlInit], by simp [ctrlInit]⟩
  | step hr hstep ih =>
    cases hstep with
    | rx b s1 => exact ctrlRx_invariant b ih.1 ih.2
    | tx s1 => exact ctrlTx_invariant ih.1 ih.2
    | idle s1 => exact ih

theorem periphRx_invariant {s s2 : PeriphState} {b : Nat}
    (hl : s.queue.length ≤ 15) (he : s.txfnfie = !s.queue.isEmpty)
    (h : periphRx s b = some s2) :
    s2.queue.length ≤ 15 ∧ s2.txfnfie = !s2.queue.isEmpty := by
  unfold periphRx at h
  split_ifs at h with hb
  · cases hc : compute s.calculator with
    | error e => rw [hc] at h; exact absurd h (by simp)
    | ok p =>
      obtain ⟨r, calc2⟩ := p
      rw [hc] at h
      have hs2 := (Option.some.inj h).symm
      subst hs2
      refine ⟨enqueueAll_length_le hl, ?_⟩
      by_cases hqe : (enqueueAll s.queue (replyBytes r)).isEmpty
      · have hse := enqueueAll_isEmpty hl hqe
        simp [hqe, he, hse]
      · simp only [Bool.not_eq_true] at hqe
        simp [hqe]
  · have hs2 := (Option.some.inj h).symm
    subst hs2
    simp only []
    set q2 := if (transition s.calculator (Char.ofNat (b % 256))).2
      then enqueueAttempt s.queue b else s.queue with hq2
    have hq2l : q2.length ≤ 15 := by
      rw [hq2]
      split
      · exact runQOp_length_le hl (QOp.enq b)
      · exact hl
    have hq2e : q2.isEmpty = true → s.queue.isEmpty = true := by
      rw [hq2]
      split
      · exact enqueueAttempt_isEmpty
      · exact id
    refine ⟨hq2l, ?_⟩
    by_cases hqe : q2.isEmpty
    · simp [hqe, he, hq2e hqe]
    · simp only [Bool.not_eq_true] at hqe
      simp [hqe]

theorem periphTx_invariant {s : PeriphState} (ihl : s.queue.length ≤ 15)
    (ihe : s.txfnfie = !s.queue.isEmpty) :
    (periphTx s).queue.length ≤ 15 ∧
      (periphTx s).txfnfie = !(periphTx s).queue.isEmpty := by
  cases hq : s.queue with
  | nil =>
    simp only [periphTx, hq, dequeueQ]
    exact ⟨by simp [hq], by simp [hq]⟩
  | cons x xs =>
    rw [hq] at ihl ihe
    simp only [periphTx, hq, dequeueQ]
    refine ⟨by simp only [List.length_cons] at ihl ⊢; omega, ?_⟩
    by_cases hxe : xs.isEmpty
    · simp [hxe]
    · simp only [List.isEmpty_cons, Bool.not_false] at ihe
      simp only [Bool.not_eq_true] at hxe
      simp [hxe, ihe]

theorem periph_invariant {s : PeriphState} (h : PeriphReachable s) :
    s.queue.length ≤ 15 ∧ s.txfnfie = !s.queue.isEmpty := by
  induction h with
  | init => exact ⟨by simp [periphInit], by simp [periphInit]⟩
  | step hr hstep ih =>
    cases hstep with
    | rx hsome => exact periphRx_invariant ih.1 ih.2 hsome
    | tx s1 => exact periphTx_invariant ih.1 ih.2
    | idle s1 => exact ih

/-! ## Claim theorems C8 and C10 -/

/-- C8: in every reachable state of either transport bridge, starting from
an empty channel with the transmit interrupt disabled and applying any
sequence of receive-handler and transmit-handler invocations, the
transmit-side interrupt enable equals the channel's current non-emptiness.
Since emptiness only changes at an enqueue or dequeue, the bit is set iff
the channel was non-empty at the last enqueue/dequeue that changed
emptiness: the receive half turns it on when an enqueue makes the channel
non-empty, and the transmit half turns it off when a dequeue empties the
channel or finds nothing. -/
theorem tx_enable_iff_nonempty :
    (∀ s : CtrlState, CtrlReachable s → s.txeie = !s.queue.isEmpty) ∧
    (∀ s : PeriphState, PeriphReachable s → s.txfnfie = !s.queue.isEmpty) :=
  ⟨fun _ h => (ctrl_invariant h).2, fun _ h => (periph_invariant h).2⟩

theorem tx_enable_iff_nonempty_witness :
    ctrlInit.txeie = !ctrlInit.queue.isEmpty ∧
    periphInit.txfnfie = !periphInit.queue.isEmpty :=
  ⟨tx_enable_iff_nonempty.1 ctrlInit CtrlReachable.init,
    tx_enable_iff_nonempty.2 periphInit PeriphReachable.init⟩

theorem compute_div_eq (n1 n2 : List Char) :
    compute { num1 := n1, num2 := n2, op := '/', state := .Num2 } =
      (if (parseU32 n2).getD 1 = 0 then Except.error CalcError.divisionByZero
       else Except.ok (parse0 n1 / (parseU32 n2).getD 1,
         { num1 := [], num2 := [], op := '/', state := .Num1 })) := rfl

theorem calcReachable_op {s : CalculatorStateMachine} (h : CalcReachable s) :
    s.op ∈ (['+', '-', '*', '/'] : List Char) := by
  induction h with
  | init => simp [CalculatorStateMachine.default]
  | tstep c hr ih =>
    rename_i s
    cases hst : s.state <;> simp only [transition, hst]
    · split_ifs with h1 h2
      · simpa using ih
      · simpa using h2
      · simpa using ih
    · split_ifs with h1
      · simpa using ih
      · simpa using ih
  | cstep hr hc ih =>
    rw [compute_ok_shape hc]
    simpa using ih

/-- C10: in every reachable calculator state, whenever the phase is
`Num2` (indeed, in every state) the stored operator is one of '+', '-',
'*', '/' -- it starts as '+' and is only ever overwritten by one of these
four during the transition into `Num2` -- so the `unreachable!()` arm of
the operator match in `compute` is never executed: `compute` never panics
through that arm (though it can still panic through division by zero). -/
theorem operator_invariant_no_unreachable (s : CalculatorStateMachine)
    (h : CalcReachable s) :
    (s.state = .Num2 → s.op ∈ (['+', '-', '*', '/'] : List Char)) ∧
    compute s ≠ .error CalcError.unreachableCase := by
  have hop := calcReachable_op h
  refine ⟨fun _ => hop, ?_⟩
  obtain ⟨n1, n2, op, st⟩ := s
  simp only at hop
  cases st
  · exact fun hh => Except.noConfusion hh
  · have hop4 : op = '+' ∨ op = '-' ∨ op = '*' ∨ op = '/' := by simpa using hop
    rcases hop4 with rfl | rfl | rfl | rfl
    · exact fun hh => Except.noConfusion hh
    · exact fun hh => Except.noConfusion hh
    · exact fun hh => Except.noConfusion hh
    · intro hh
      rw [compute_div_eq n1 n2] at hh
      split at hh
      · exact CalcError.noConfusion (Except.error.inj hh)
      · exact Except.noConfusion hh

theorem operator_invariant_no_unreachable_witness :
    (CalculatorStateMachine.default.state = .Num2 →
      CalculatorStateMachine.default.op ∈ (['+', '-', '*', '/'] : List Char)) ∧
    compute CalculatorStateMachine.default ≠ .error CalcError.unreachableCase :=
  operator_invariant_no_unreachable CalculatorStateMachine.default CalcReachable.init

end SpiCalc
